import Mathlib

/-!
Verification of the binary-matrix engine of fdaPDE (`binary_matrix.h`).

The C++ code stores a logical `n_rows x n_cols` boolean matrix in row-major
bit order inside an array of `std::uintmax_t` words ("bitpacks") of
`PackSize = 64` bits each.  Logical element `(i,j)` lives at bit
`(i*cols + j) % PackSize` of word `(i*cols + j) / PackSize`.

Machine words are modelled as `Nat`; every mutation keeps words below
`2 ^ PackSize` (the well-formedness predicate `wf`), so the C++ bitwise
operations on `uintmax_t` coincide with the `Nat` operations used here.
The unsigned complement `~b` is rendered as `(2 ^ PackSize - 1) ^^^ b`,
and an unsigned right shift as `Nat` shift (for shift amounts equal to the
word width, where the C++ shift is undefined behaviour, the model yields 0).
`fdapde_assert` conditions are modelled as explicit boolean predicates or
as `Option` guards, as noted at each definition.
-/

namespace fdapde

/-- Number of bits in a bitpack: `sizeof(std::uintmax_t) * 8` on the
reference platform. -/
def PackSize : Nat := 64

/-- The concrete dense-storage binary matrix (`BinaryMatrix<Rows, Cols>`):
row count, column count, the cached bitpack count `n_bitpacks_`, and the
word array `data_`. -/
structure BinaryMatrix where
  n_rows : Nat
  n_cols : Nat
  n_bitpacks : Nat
  data : List Nat

namespace BinaryMatrix

/-- Dynamic-sized constructor `BinaryMatrix(int n_rows, int n_cols)`:
`n_bitpacks_ = 1 + std::ceil((n_rows_ * n_cols_) / PackSize)`.  Both
operands of the division are `int`, so the division is integer (floor)
division and `std::ceil` is applied to an already integral value; the
storage is zero-filled. -/
def ofDims (r c : Nat) : BinaryMatrix :=
  ⟨r, c, 1 + r * c / PackSize, List.replicate (1 + r * c / PackSize) 0⟩

/-- `resize(int rows, int cols)`: recomputes `n_bitpacks_` with the same
integer-division formula as the constructor and reallocates zero-filled
storage. -/
def resize (_m : BinaryMatrix) (r c : Nat) : BinaryMatrix :=
  ⟨r, c, 1 + r * c / PackSize, List.replicate (1 + r * c / PackSize) 0⟩

/-- `bitpack(int i)`: the i-th word of the storage (`data_[i]`); reads out
of the allocated range are totalised to 0. -/
def bitpack (m : BinaryMatrix) (i : Nat) : Nat := m.data.getD i 0

/-- `BinaryMatrix::operator()(int i, int j)` (the concrete type's own
access operator): `(data_[pack_of(i,j)] & BitPackType(1) << ((i*n_cols_+j) % PackSize)) != 0`.
Note: this operator performs no bounds check. -/
def elem (m : BinaryMatrix) (i j : Nat) : Bool :=
  (m.bitpack ((i * m.n_cols + j) / PackSize) &&& (1 <<< ((i * m.n_cols + j) % PackSize))) != 0

/-- `set(int i, int j)`: `data_[pack_of(i,j)] |= BitPackType(1) << ((i*n_cols_+j) % PackSize)`.
The guarding assertion `i < n_rows_ && j < n_cols_` is modelled separately
by `idxAssert`. -/
def set (m : BinaryMatrix) (i j : Nat) : BinaryMatrix :=
  { m with
    data := m.data.set ((i * m.n_cols + j) / PackSize)
      (m.data.getD ((i * m.n_cols + j) / PackSize) 0 ||| (1 <<< ((i * m.n_cols + j) % PackSize))) }

/-- Well-formedness maintained by the constructors and mutators: the cached
bitpack count matches the sizing formula, the storage has exactly that many
words, and every word fits in a machine word. -/
def wf (m : BinaryMatrix) : Prop :=
  m.n_bitpacks = 1 + m.n_rows * m.n_cols / PackSize ∧
  m.data.length = m.n_bitpacks ∧
  ∀ w ∈ m.data, w < 2 ^ PackSize

end BinaryMatrix

/-- A binary-matrix expression node (`BinMtxBase<Rows, Cols, XprType>`
interface): logical dimensions, cached bitpack count, word-level access
`bitpack(int)` and element-level access `operator()(int,int)`. -/
structure BinMtxXpr where
  rows : Nat
  cols : Nat
  nbitpacks : Nat
  bitpack : Nat → Nat
  elem : Nat → Nat → Bool

/-- View a concrete matrix as an expression leaf. -/
def BinaryMatrix.toXpr (m : BinaryMatrix) : BinMtxXpr :=
  ⟨m.n_rows, m.n_cols, m.n_bitpacks, fun k => m.bitpack k, fun i j => m.elem i j⟩

/-- `BinMtxBinaryOp`: dimensions are taken from the first operand, the
bitpack count is recomputed by the `BinMtxBase(int,int)` constructor
(`1 + (rows*cols)/PackSize` with integer division), `bitpack(i)` applies
the word-level functor to the operand bitpacks, `operator()(i,j)` applies
the boolean functor to the operand elements.  The equal-dimension
assertion of the node constructor is a hypothesis of the theorems using
these nodes. -/
def binMtxBinOp (fb : Nat → Nat → Nat) (fl : Bool → Bool → Bool) (e1 e2 : BinMtxXpr) : BinMtxXpr :=
  ⟨e1.rows, e1.cols, 1 + e1.rows * e1.cols / PackSize,
    fun k => fb (e1.bitpack k) (e2.bitpack k),
    fun i j => fl (e1.elem i j) (e2.elem i j)⟩

/-- `operator&` on binary expressions (`std::bit_and` / logical and). -/
def bmAnd : BinMtxXpr → BinMtxXpr → BinMtxXpr :=
  binMtxBinOp (fun a b => a &&& b) (fun a b => a && b)

/-- `operator|` on binary expressions (`std::bit_or` / logical or). -/
def bmOr : BinMtxXpr → BinMtxXpr → BinMtxXpr :=
  binMtxBinOp (fun a b => a ||| b) (fun a b => a || b)

/-- `operator^` on binary expressions (`std::bit_xor` / boolean xor). -/
def bmXor : BinMtxXpr → BinMtxXpr → BinMtxXpr :=
  binMtxBinOp (fun a b => a ^^^ b) (fun a b => a != b)

/-- Runtime dimension assertion of `operator==` / `operator!=`:
`op1.rows() == op2.rows() && op1.cols() == op2.cols()`. -/
def dimAssert (e1 e2 : BinMtxXpr) : Bool :=
  (e1.rows == e2.rows) && (e1.cols == e2.cols)

/-- `operator==` on binary expressions: with `n = op1.bitpacks() - 1`,
ANDs direct equality of bitpacks `0 .. n-1` with equality of bitpack `n`
under `mask = ~BitPackType(0) >> (PackSize - (op1.size() - PackSize*n))`.
The short-circuit `result &&` early exit of the source loop does not
change the accumulated conjunction and is dropped. -/
def binEq (e1 e2 : BinMtxXpr) : Bool :=
  ((List.range (e1.nbitpacks - 1)).all fun k => e1.bitpack k == e2.bitpack k) &&
    ((((2 ^ PackSize - 1) >>> (PackSize - (e1.rows * e1.cols - PackSize * (e1.nbitpacks - 1)))) &&&
        e1.bitpack (e1.nbitpacks - 1)) ==
      (((2 ^ PackSize - 1) >>> (PackSize - (e1.rows * e1.cols - PackSize * (e1.nbitpacks - 1)))) &&&
        e2.bitpack (e1.nbitpacks - 1)))

/-- `operator!=` on binary expressions: ORs disequality of bitpacks
`0 .. n-1` with masked disequality of bitpack `n` (same mask as
`operator==`); the `|| result` early exit is likewise dropped. -/
def binNe (e1 e2 : BinMtxXpr) : Bool :=
  ((List.range (e1.nbitpacks - 1)).any fun k => e1.bitpack k != e2.bitpack k) ||
    ((((2 ^ PackSize - 1) >>> (PackSize - (e1.rows * e1.cols - PackSize * (e1.nbitpacks - 1)))) &&&
        e1.bitpack (e1.nbitpacks - 1)) !=
      (((2 ^ PackSize - 1) >>> (PackSize - (e1.rows * e1.cols - PackSize * (e1.nbitpacks - 1)))) &&&
        e2.bitpack (e1.nbitpacks - 1)))

/-- `all_visitor::apply(BitPackType b)`: `res &= (~b == 0)`; the unsigned
complement is `(2^PackSize - 1) ^^^ b`. -/
def allApplyFull (res : Bool) (b : Nat) : Bool :=
  res && (((2 ^ PackSize - 1) ^^^ b) == 0)

/-- `all_visitor::apply(BitPackType b, int size)`:
`res &= ((1 << (PackSize - size)) - 1 & b) == (1 << (PackSize - size)) - 1`. -/
def allApplyLast (res : Bool) (b s : Nat) : Bool :=
  res && ((((1 <<< (PackSize - s)) - 1) &&& b) == ((1 <<< (PackSize - s)) - 1))

/-- `any_visitor::apply(BitPackType b)`: `res |= (b != 0)`. -/
def anyApplyFull (res : Bool) (b : Nat) : Bool :=
  res || (b != 0)

/-- `any_visitor::apply(BitPackType b, int size)`:
`res |= ((~BitPackType(0) >> (PackSize - size)) & b) != 0`. -/
def anyApplyLast (res : Bool) (b s : Nat) : Bool :=
  res || ((((2 ^ PackSize - 1) >>> (PackSize - s)) &&& b) != 0)

/-- `linear_bitpack_visit::run` specialised to `all_visitor` (this is
`all()`).  For `0 < size < PackSize` the source calls
`visitor.apply(bitpack(0), PackSize - size)`; otherwise it applies the
full-word visitor to the `size / PackSize` leading full bitpacks
(`i + PackSize - 1 < size` holds for exactly that many loop steps) and, if
`size` is not a multiple of `PackSize`, finishes with
`visitor.apply(bitpack(k), size - i)` where `i = PackSize * (size / PackSize)`
and `k = size / PackSize`.  The early-exit test `if (visitor) return;`
cannot change the accumulated result of this visitor and is dropped. -/
def allVisit (e : BinMtxXpr) : Bool :=
  let size := e.rows * e.cols
  if size == 0 then true
  else if size < PackSize then allApplyLast true (e.bitpack 0) (PackSize - size)
  else
    let n := size / PackSize
    let res := (List.range n).foldl (fun r k => allApplyFull r (e.bitpack k)) true
    if size % PackSize == 0 then res else allApplyLast res (e.bitpack n) (size - PackSize * n)

/-- `linear_bitpack_visit::run` specialised to `any_visitor` (this is
`any()`); same traversal as `allVisit`, with the `any` visitor. -/
def anyVisit (e : BinMtxXpr) : Bool :=
  let size := e.rows * e.cols
  if size == 0 then false
  else if size < PackSize then anyApplyLast false (e.bitpack 0) (PackSize - size)
  else
    let n := size / PackSize
    let res := (List.range n).foldl (fun r k => anyApplyFull r (e.bitpack k)) false
    if size % PackSize == 0 then res else anyApplyLast res (e.bitpack n) (size - PackSize * n)

/-- `BinMtxBlock::operator()(int i, int j)` over a concrete underlying
matrix: `xpr_(i + start_row_, j + start_col_)`.  The block's own assertion
`i < n_rows_ && j < n_cols_` is a hypothesis where relevant; the inner call
resolves to the concrete type's unchecked access operator. -/
def blockElem (m : BinaryMatrix) (sr sc i j : Nat) : Bool :=
  m.elem (i + sr) (j + sc)

/-- `BinMtxBlock::bitpack(int i)` over a concrete underlying matrix, for a
block at `(sr, sc)` of logical size `br x bc`:

  `col_offset_ = start_col_ + (i == 0 ? 0 : n_cols_ - (n_cols_ - ((i*PackSize) % n_cols_)))`
  (the double subtraction on `int` cancels, leaving `(i*PackSize) % n_cols_`);

  `row_offset_ = start_row_ + std::floor(i * (PackSize / (double)n_cols_))`,
  modelled as `sr + i * PackSize / bc` in integer arithmetic — at every
  argument evaluated in this file the double computation yields exactly
  this value;

then for each `j` with `j < PackSize` and `i*PackSize + j < size()` the bit
`(mask & xpr_(row_offset_ + j / n_cols_, col_offset_ + j % n_cols_)) << j`
(with `mask = 0x1`, so the boolean converts to `0`/`1`) is ORed into the
output word. -/
def blockBitpack (m : BinaryMatrix) (sr sc br bc : Nat) (i : Nat) : Nat :=
  let colOff := sc + (if i == 0 then 0 else (i * PackSize) % bc)
  let rowOff := sr + i * PackSize / bc
  (List.range PackSize).foldl
    (fun out j =>
      if i * PackSize + j < br * bc then
        out ||| ((if m.elem (rowOff + j / bc) (colOff + j % bc) then 1 else 0) <<< j)
      else out)
    0

/-- Row-major list of the cell coordinates of an `r x c` region, in the
iteration order of the source's nested `for` loops. -/
def cellList (r c : Nat) : List (Nat × Nat) :=
  (List.range r).flatMap fun i => (List.range c).map fun j => (i, j)

/-- `BinMtxBlock::operator=(const BinMtxBase<...>& rhs)` for a block of a
concrete matrix at `(sr, sc)`: after the assertion
`rhs.rows() == n_rows_ && rhs.cols() == n_cols_` (a hypothesis of the
theorems), it runs `for i, for j: if (rhs(i, j)) set(i, j)`, where the
block's `set(i,j)` is `xpr_.set(i + start_row_, j + start_col_)`.  Note the
loop only sets bits. -/
def blockAssign (m : BinaryMatrix) (sr sc : Nat) (rhs : BinMtxXpr) : BinaryMatrix :=
  (cellList rhs.rows rhs.cols).foldl
    (fun acc p => if rhs.elem p.1 p.2 then acc.set (p.1 + sr) (p.2 + sc) else acc) m

/-- `BinaryMatrix::operator=(const Eigen::MatrixBase<Derived>&)` on a
statically-sized target: the dynamic-only `resize` branch is skipped
(`n_rows_`/`n_cols_` are re-assigned to the statically equal source
dimensions), then `for i, for j: if (mtx(i, j)) set(i, j)`.  The dense
numeric source is modelled as its entry function. -/
def assignDenseStatic (m : BinaryMatrix) (src : Nat → Nat → Int) : BinaryMatrix :=
  (cellList m.n_rows m.n_cols).foldl
    (fun acc p => if src p.1 p.2 != 0 then acc.set p.1 p.2 else acc) m

/-- The assertion condition of `BinaryMatrix::set(int,int)` (line 166),
`BinaryMatrix::clear(int,int)` (line 181) and `BinMtxBase::operator()`
(line 538): `i < n_rows_ && j < n_cols_` on signed `int` operands — only
upper bounds are checked. -/
def idxAssert (r c : Nat) (i j : Int) : Bool :=
  decide (i < (r : Int)) && decide (j < (c : Int))

/-- `BinMtxBase::operator()(int i, int j)`: the assertion guard around
element access, modelled as an `Option` (a `none` is an assertion
failure). -/
def elemChecked (m : BinaryMatrix) (i j : Nat) : Option Bool :=
  if i < m.n_rows && j < m.n_cols then some (m.elem i j) else none

instance (m : BinaryMatrix) : Decidable m.wf :=
  decidable_of_iff
    (m.n_bitpacks = 1 + m.n_rows * m.n_cols / PackSize ∧
      m.data.length = m.n_bitpacks ∧ ∀ w ∈ m.data, w < 2 ^ PackSize)
    Iff.rfl

/-- A 7x10 matrix with every logical bit raised through `set` (padding bits
of the last bitpack stay 0). -/
def allSet70 : BinaryMatrix :=
  (cellList 7 10).foldl (fun acc p => acc.set p.1 p.2) (BinaryMatrix.ofDims 7 10)

/-- A 40-element column vector (`BinaryVector<Dynamic>(40)`) with only bit
39 set. -/
def vec40 : BinaryMatrix := (BinaryMatrix.ofDims 40 1).set 39 0

/-- A 23x4 matrix with only element (22, 0) set. -/
def mtx234 : BinaryMatrix := (BinaryMatrix.ofDims 23 4).set 22 0

/-- A 2x3 matrix with only element (1, 2) set. -/
def mtx23 : BinaryMatrix := (BinaryMatrix.ofDims 2 3).set 1 2

/-- A 1x1 matrix holding `true`. -/
def oneCell : BinaryMatrix := (BinaryMatrix.ofDims 1 1).set 0 0

/-- A 1x1 matrix holding `false`. -/
def zeroCell : BinaryMatrix := BinaryMatrix.ofDims 1 1

/-! Helper lemmas. -/

@[simp] theorem toXpr_rows (m : BinaryMatrix) : m.toXpr.rows = m.n_rows := rfl

@[simp] theorem toXpr_cols (m : BinaryMatrix) : m.toXpr.cols = m.n_cols := rfl

@[simp] theorem toXpr_nbitpacks (m : BinaryMatrix) : m.toXpr.nbitpacks = m.n_bitpacks := rfl

@[simp] theorem toXpr_bitpack (m : BinaryMatrix) (k : Nat) : m.toXpr.bitpack k = m.bitpack k := rfl

@[simp] theorem toXpr_elem (m : BinaryMatrix) (i j : Nat) : m.toXpr.elem i j = m.elem i j := rfl

@[simp] theorem set_n_rows (m : BinaryMatrix) (x y : Nat) : (m.set x y).n_rows = m.n_rows := rfl

@[simp] theorem set_n_cols (m : BinaryMatrix) (x y : Nat) : (m.set x y).n_cols = m.n_cols := rfl

theorem getD_lt_of_bound (l : List Nat) (B : Nat) (hB : 0 < B) (h : ∀ w ∈ l, w < B) (k : Nat) :
    l.getD k 0 < B := by
  rw [List.getD_eq_getElem?_getD]
  cases hk : l[k]? with
  | none => simpa using hB
  | some w =>
    have hw : w ∈ l := by
      have hlen : k < l.length := by
        by_contra hlen
        rw [List.getElem?_eq_none (by omega)] at hk
        exact Option.noConfusion hk
      have : l[k] = w := by
        have := List.getElem?_eq_getElem hlen
        rw [hk] at this
        exact (Option.some.injEq _ _).mp this.symm
      exact this ▸ l.getElem_mem hlen
    simpa using h w hw

theorem bitpack_lt (m : BinaryMatrix) (h : m.wf) (k : Nat) : m.bitpack k < 2 ^ PackSize :=
  getD_lt_of_bound m.data _ (Nat.two_pow_pos _) h.2.2 k

theorem elem_testBit (m : BinaryMatrix) (i j : Nat) :
    m.elem i j =
      (m.bitpack ((i * m.n_cols + j) / PackSize)).testBit ((i * m.n_cols + j) % PackSize) := by
  unfold BinaryMatrix.elem
  rw [Nat.shiftLeft_eq, one_mul, Nat.and_two_pow]
  cases h : (m.bitpack ((i * m.n_cols + j) / PackSize)).testBit ((i * m.n_cols + j) % PackSize) <;>
    simp [h, Nat.pos_iff_ne_zero, Nat.two_pow_pos]

theorem mask_eq (v : Nat) (hv : v ≤ PackSize) :
    (2 ^ PackSize - 1) >>> (PackSize - v) = 2 ^ v - 1 := by
  rw [Nat.shiftRight_eq_div_pow]
  have hmul : 2 ^ (PackSize - v) * 2 ^ v = 2 ^ PackSize := by
    rw [← pow_add]
    congr 1
    omega
  have h1 : 0 < 2 ^ (PackSize - v) := Nat.two_pow_pos _
  have h2 : 0 < 2 ^ v := Nat.two_pow_pos _
  have hle : 2 ^ (PackSize - v) ≤ 2 ^ PackSize := Nat.pow_le_pow_right (by norm_num) (by omega)
  have hsplit : 2 ^ PackSize - 1 = 2 ^ (PackSize - v) * (2 ^ v - 1) + (2 ^ (PackSize - v) - 1) := by
    rw [Nat.mul_sub_one, hmul]
    omega
  rw [hsplit, Nat.mul_add_div h1, Nat.div_eq_of_lt (by omega)]
  omega

theorem linear_inj (c x y u v : Nat) (hy : y < c) (hv : v < c) (h : x * c + y = u * c + v) :
    x = u ∧ y = v := by
  have hc0 : 0 < c := by omega
  have h1 : (x * c + y) / c = x := by
    rw [mul_comm x c, Nat.mul_add_div hc0, Nat.div_eq_of_lt hy, add_zero]
  have h2 : (u * c + v) / c = u := by
    rw [mul_comm u c, Nat.mul_add_div hc0, Nat.div_eq_of_lt hv, add_zero]
  have h3 : (x * c + y) % c = y := by
    rw [mul_comm x c, Nat.mul_add_mod, Nat.mod_eq_of_lt hy]
  have h4 : (u * c + v) % c = v := by
    rw [mul_comm u c, Nat.mul_add_mod, Nat.mod_eq_of_lt hv]
  constructor
  · rw [← h1, ← h2, h]
  · rw [← h3, ← h4, h]

theorem linear_lt (r c x y : Nat) (hx : x < r) (hy : y < c) : x * c + y < r * c := by
  calc x * c + y < x * c + c := by omega
    _ = (x + 1) * c := by ring
    _ ≤ r * c := Nat.mul_le_mul_right c hx

theorem bitpack_set (m : BinaryMatrix) (h : m.wf) (x y : Nat)
    (hx : x < m.n_rows) (hy : y < m.n_cols) (k : Nat) :
    (m.set x y).bitpack k =
      if (x * m.n_cols + y) / PackSize = k then
        m.bitpack k ||| (1 <<< ((x * m.n_cols + y) % PackSize))
      else m.bitpack k := by
  have ht : x * m.n_cols + y < m.n_rows * m.n_cols := linear_lt _ _ _ _ hx hy
  have hlen : (x * m.n_cols + y) / PackSize < m.data.length := by
    rw [h.2.1, h.1]
    simp only [PackSize] at ht ⊢
    omega
  unfold BinaryMatrix.set BinaryMatrix.bitpack
  by_cases hk : (x * m.n_cols + y) / PackSize = k
  · rw [if_pos hk]
    subst hk
    simp [List.getD_eq_getElem?_getD, List.getElem?_set_self hlen]
  · rw [if_neg hk]
    simp [List.getD_eq_getElem?_getD, List.getElem?_set_ne hk]

theorem elem_set (m : BinaryMatrix) (h : m.wf) (x y u v : Nat)
    (hx : x < m.n_rows) (hy : y < m.n_cols) (hv : v < m.n_cols) :
    (m.set x y).elem u v = if x = u ∧ y = v then true else m.elem u v := by
  rw [elem_testBit, elem_testBit, set_n_cols, bitpack_set m h x y hx hy]
  by_cases heq : x = u ∧ y = v
  · obtain ⟨rfl, rfl⟩ := heq
    simp [Nat.testBit_or, Nat.shiftLeft_eq, one_mul, Nat.testBit_two_pow]
  · rw [if_neg heq]
    by_cases hp : (x * m.n_cols + y) / PackSize = (u * m.n_cols + v) / PackSize
    · have hne : x * m.n_cols + y ≠ u * m.n_cols + v := fun hteq => heq (linear_inj _ _ _ _ _ hy hv hteq)
      have hoff : (x * m.n_cols + y) % PackSize ≠ (u * m.n_cols + v) % PackSize := by
        simp only [PackSize] at hp ⊢
        omega
      rw [if_pos hp, Nat.testBit_or, Nat.shiftLeft_eq, one_mul, Nat.testBit_two_pow]
      simp [hoff]
    · rw [if_neg hp]

theorem wf_set (m : BinaryMatrix) (h : m.wf) (x y : Nat) : (m.set x y).wf := by
  refine ⟨h.1, ?_, ?_⟩
  · show (m.data.set _ _).length = m.n_bitpacks
    rw [List.length_set, h.2.1]
  · intro w hw
    rcases List.mem_or_eq_of_mem_set hw with hmem | rfl
    · exact h.2.2 _ hmem
    · apply Nat.or_lt_two_pow (getD_lt_of_bound m.data _ (Nat.two_pow_pos _) h.2.2 _)
      rw [Nat.shiftLeft_eq, one_mul]
      exact Nat.pow_lt_pow_right (by norm_num) (Nat.mod_lt _ (by simp [PackSize]))

theorem elem_set_mono (m : BinaryMatrix) (x y u v : Nat) (h : m.elem u v = true) :
    (m.set x y).elem u v = true := by
  rw [elem_testBit] at h
  rw [elem_testBit, set_n_cols]
  have hbp : ∀ k, (m.set x y).bitpack k = m.bitpack k ∨
      (m.set x y).bitpack k = m.bitpack k ||| (1 <<< ((x * m.n_cols + y) % PackSize)) := by
    intro k
    unfold BinaryMatrix.set BinaryMatrix.bitpack
    by_cases hk : (x * m.n_cols + y) / PackSize = k
    · subst hk
      by_cases hlen : (x * m.n_cols + y) / PackSize < m.data.length
      · right
        simp [List.getD_eq_getElem?_getD, List.getElem?_set_self hlen]
      · left
        rw [List.set_eq_of_length_le (by omega)]
    · left
      simp [List.getD_eq_getElem?_getD, List.getElem?_set_ne hk]
  rcases hbp ((u * m.n_cols + v) / PackSize) with hbk | hbk <;> rw [hbk]
  · exact h
  · rw [Nat.testBit_or, h, Bool.true_or]

theorem cellList_mem (r c : Nat) (p : Nat × Nat) : p ∈ cellList r c ↔ p.1 < r ∧ p.2 < c := by
  cases p with
  | mk a b =>
    simp only [cellList, List.mem_flatMap, List.mem_map, List.mem_range, Prod.mk.injEq]
    constructor
    · rintro ⟨i, hi, j, hj, rfl, rfl⟩
      exact ⟨hi, hj⟩
    · rintro ⟨ha, hb⟩
      exact ⟨a, ha, b, hb, rfl, rfl⟩

theorem foldl_assign_elem (rhs : BinMtxXpr) (sr sc : Nat) :
    ∀ (L : List (Nat × Nat)) (m : BinaryMatrix), m.wf →
      (∀ p ∈ L, p.1 + sr < m.n_rows ∧ p.2 + sc < m.n_cols) →
      ∀ u v : Nat, u < m.n_rows → v < m.n_cols →
      (L.foldl (fun acc p => if rhs.elem p.1 p.2 then acc.set (p.1 + sr) (p.2 + sc) else acc)
          m).elem u v =
        (m.elem u v || L.any fun p => rhs.elem p.1 p.2 && (p.1 + sr == u) && (p.2 + sc == v)) := by
  intro L
  induction L with
  | nil =>
    intro m h hin u v hu hv
    simp
  | cons p L ih =>
    intro m h hin u v hu hv
    rw [List.foldl_cons, List.any_cons]
    by_cases hrp : rhs.elem p.1 p.2 = true
    · rw [if_pos hrp]
      rw [ih (m.set (p.1 + sr) (p.2 + sc)) (wf_set m h _ _)
            (fun q hq => by
              rw [set_n_rows, set_n_cols]
              exact hin q (List.mem_cons_of_mem p hq))
            u v (by rw [set_n_rows]; exact hu) (by rw [set_n_cols]; exact hv)]
      rw [elem_set m h _ _ u v (hin p (List.mem_cons_self p L)).1
            (hin p (List.mem_cons_self p L)).2 hv]
      by_cases hxy : p.1 + sr = u ∧ p.2 + sc = v
      · rw [if_pos hxy]
        have b1 : (p.1 + sr == u) = true := by rw [hxy.1]; exact beq_self_eq_true u
        have b2 : (p.2 + sc == v) = true := by rw [hxy.2]; exact beq_self_eq_true v
        simp [hrp, b1, b2]
      · rw [if_neg hxy]
        have hprod : (rhs.elem p.1 p.2 && (p.1 + sr == u) && (p.2 + sc == v)) = false := by
          by_cases hone : p.1 + sr = u
          · have htwo : p.2 + sc ≠ v := fun htwo => hxy ⟨hone, htwo⟩
            simp [htwo]
          · simp [hone]
        rw [hprod, Bool.false_or]
    · rw [if_neg hrp]
      have hrp' : rhs.elem p.1 p.2 = false := by
        revert hrp
        cases rhs.elem p.1 p.2 <;> simp
      rw [ih m h (fun q hq => hin q (List.mem_cons_of_mem p hq)) u v hu hv, hrp']
      simp

theorem foldl_set_mono (src : Nat → Nat → Int) :
    ∀ (L : List (Nat × Nat)) (m : BinaryMatrix) (u v : Nat), m.elem u v = true →
      (L.foldl (fun acc p => if src p.1 p.2 != 0 then acc.set p.1 p.2 else acc) m).elem u v
        = true := by
  intro L
  induction L with
  | nil =>
    intro m u v h
    exact h
  | cons p L ih =>
    intro m u v h
    rw [List.foldl_cons]
    apply ih
    by_cases hs : (src p.1 p.2 != 0) = true
    · rw [if_pos hs]
      exact elem_set_mono m _ _ u v h
    · rw [if_neg hs]
      exact h

theorem any_bne_eq_not_all_beq (l : List Nat) (f g : Nat → Nat) :
    (l.any fun k => f k != g k) = !(l.all fun k => f k == g k) := by
  induction l with
  | nil => rfl
  | cons a l ih =>
    rw [List.any_cons, List.all_cons, Bool.not_and, ih]
    rfl

theorem binNe_eq_not_binEq (e1 e2 : BinMtxXpr) : binNe e1 e2 = !binEq e1 e2 := by
  unfold binEq binNe
  rw [Bool.not_and, any_bne_eq_not_all_beq]
  rfl

theorem binEq_of_bitpack_eq (e1 e2 : BinMtxXpr) (h : ∀ k, e1.bitpack k = e2.bitpack k) :
    binEq e1 e2 = true := by
  unfold binEq
  rw [Bool.and_eq_true]
  constructor
  · rw [List.all_eq_true]
    intro k _
    rw [h k]
    exact beq_self_eq_true _
  · rw [h]
    exact beq_self_eq_true _

theorem nat_xor_or_and (a b : Nat) : (a ^^^ b) ||| (a &&& b) = a ||| b := by
  apply Nat.eq_of_testBit_eq
  intro i
  simp only [Nat.testBit_or, Nat.testBit_xor, Nat.testBit_and]
  cases a.testBit i <;> cases b.testBit i <;> rfl

theorem binEq_true_iff (m1 m2 : BinaryMatrix) (h1 : m1.wf) (h2 : m2.wf)
    (hr : m1.n_rows = m2.n_rows) (hc : m1.n_cols = m2.n_cols) :
    (binEq m1.toXpr m2.toXpr = true ↔
      ∀ i, i < m1.n_rows → ∀ j, j < m1.n_cols → m1.elem i j = m2.elem i j) := by
  have hP : (0:Nat) < PackSize := by simp [PackSize]
  have hn : m1.n_bitpacks - 1 = m1.n_rows * m1.n_cols / PackSize := by
    have hb1 := h1.1
    simp only [PackSize] at hb1 ⊢
    omega
  have hv : m1.n_rows * m1.n_cols - PackSize * (m1.n_bitpacks - 1)
      = m1.n_rows * m1.n_cols % PackSize := by
    simp only [PackSize] at hn ⊢
    omega
  have hvle : m1.n_rows * m1.n_cols % PackSize ≤ PackSize :=
    le_of_lt (Nat.mod_lt _ hP)
  unfold binEq
  simp only [toXpr_rows, toXpr_cols, toXpr_nbitpacks, toXpr_bitpack]
  rw [hv, mask_eq _ hvle, hn]
  rw [Bool.and_eq_true, List.all_eq_true]
  constructor
  · rintro ⟨hall, hlast⟩ i hi j hj
    rw [elem_testBit, elem_testBit, ← hc]
    have ht : i * m1.n_cols + j < m1.n_rows * m1.n_cols := linear_lt _ _ _ _ hi hj
    by_cases hk : (i * m1.n_cols + j) / PackSize < m1.n_rows * m1.n_cols / PackSize
    · have := hall _ (List.mem_range.mpr hk)
      rw [beq_iff_eq] at this
      rw [this]
    · have hkn : (i * m1.n_cols + j) / PackSize = m1.n_rows * m1.n_cols / PackSize ∧
          (i * m1.n_cols + j) % PackSize < m1.n_rows * m1.n_cols % PackSize := by
        simp only [PackSize] at ht hk ⊢
        omega
      rw [beq_iff_eq] at hlast
      have hbit := congrArg (fun x => Nat.testBit x ((i * m1.n_cols + j) % PackSize)) hlast
      simp only [Nat.testBit_and, Nat.testBit_two_pow_sub_one] at hbit
      rw [decide_eq_true hkn.2] at hbit
      simp only [Bool.true_and] at hbit
      rw [hkn.1]
      exact hbit
  · intro h
    constructor
    · intro k hk
      rw [List.mem_range] at hk
      rw [beq_iff_eq]
      apply Nat.eq_of_testBit_eq
      intro b
      by_cases hb : b < PackSize
      · have hc0 : 0 < m1.n_cols := by
          rcases Nat.eq_zero_or_pos m1.n_cols with h0 | h0
          · rw [h0] at hk
            simp at hk
          · exact h0
        have ht : PackSize * k + b < m1.n_rows * m1.n_cols := by
          simp only [PackSize] at hk hb ⊢
          omega
        have hi : (PackSize * k + b) / m1.n_cols < m1.n_rows :=
          (Nat.div_lt_iff_lt_mul hc0).mpr ht
        have hj : (PackSize * k + b) % m1.n_cols < m1.n_cols := Nat.mod_lt _ hc0
        have he := h _ hi _ hj
        rw [elem_testBit, elem_testBit, ← hc] at he
        have hlin : (PackSize * k + b) / m1.n_cols * m1.n_cols + (PackSize * k + b) % m1.n_cols
            = PackSize * k + b := by
          rw [mul_comm]
          exact Nat.div_add_mod _ _
        rw [hlin] at he
        have hdiv : (PackSize * k + b) / PackSize = k := by
          simp only [PackSize] at hb ⊢
          omega
        have hmod : (PackSize * k + b) % PackSize = b := by
          simp only [PackSize] at hb ⊢
          omega
        rw [hdiv, hmod] at he
        exact he
      · have hble : 2 ^ PackSize ≤ 2 ^ b :=
          Nat.pow_le_pow_right (by norm_num) (by omega)
        rw [Nat.testBit_lt_two_pow (lt_of_lt_of_le (bitpack_lt m1 h1 k) hble),
          Nat.testBit_lt_two_pow (lt_of_lt_of_le (bitpack_lt m2 h2 k) hble)]
    · rw [beq_iff_eq]
      apply Nat.eq_of_testBit_eq
      intro b
      simp only [Nat.testBit_and, Nat.testBit_two_pow_sub_one]
      by_cases hbv : b < m1.n_rows * m1.n_cols % PackSize
      · rw [decide_eq_true hbv]
        simp only [Bool.true_and]
        have hc0 : 0 < m1.n_cols := by
          rcases Nat.eq_zero_or_pos m1.n_cols with h0 | h0
          · rw [h0] at hbv
            simp at hbv
          · exact h0
        have ht : PackSize * (m1.n_rows * m1.n_cols / PackSize) + b
            < m1.n_rows * m1.n_cols := by
          simp only [PackSize] at hbv ⊢
          omega
        have hi : (PackSize * (m1.n_rows * m1.n_cols / PackSize) + b) / m1.n_cols
            < m1.n_rows := (Nat.div_lt_iff_lt_mul hc0).mpr ht
        have hj := Nat.mod_lt (PackSize * (m1.n_rows * m1.n_cols / PackSize) + b) hc0
        have he := h _ hi _ hj
        rw [elem_testBit, elem_testBit, ← hc] at he
        have hlin : (PackSize * (m1.n_rows * m1.n_cols / PackSize) + b) / m1.n_cols * m1.n_cols +
            (PackSize * (m1.n_rows * m1.n_cols / PackSize) + b) % m1.n_cols
            = PackSize * (m1.n_rows * m1.n_cols / PackSize) + b := by
          rw [mul_comm]
          exact Nat.div_add_mod _ _
        rw [hlin] at he
        have hb64 : b < PackSize := Nat.lt_trans hbv (Nat.mod_lt _ hP)
        have hdiv : (PackSize * (m1.n_rows * m1.n_cols / PackSize) + b) / PackSize
            = m1.n_rows * m1.n_cols / PackSize := by
          simp only [PackSize] at hb64 ⊢
          omega
        have hmod : (PackSize * (m1.n_rows * m1.n_cols / PackSize) + b) % PackSize = b := by
          simp only [PackSize] at hb64 ⊢
          omega
        rw [hdiv, hmod] at he
        exact he
      · rw [decide_eq_false hbv]
        simp

/-! Claim theorems. -/

/-- C1: the claim states that for every block view and every bitpack index
`k`, bit `b` of `bitpack(k)` (with `k*PackSize + b` inside the block's
logical region) equals `operator()((k*PackSize+b) / block_cols,
(k*PackSize+b) % block_cols)`.  The code violates this: for the block at
`(0,0)` of size `23 x 3` over a `23 x 4` matrix whose only set element is
`(22, 0)`, the linear block index `1*PackSize + 2 = 66` addresses block
cell `(22, 0)`, so element access yields `true`, yet bit `2` of
`bitpack(1)` is `false` — the gather reads the underlying cell `(21, 3)`
because it adds the bitpack's column remainder and the bit's column
remainder without carrying the overflow into the row. -/
theorem c1_block_bitpack_disagrees_with_elem :
    1 * PackSize + 2 < 23 * 3 ∧
    blockElem mtx234 0 0 ((1 * PackSize + 2) / 3) ((1 * PackSize + 2) % 3) = true ∧
    Nat.testBit (blockBitpack mtx234 0 0 23 3 1) 2 = false := by decide

/-- C2: the claim states `all()` is true iff every logical element is true,
with the final bitpack's padding never influencing the result.  The code
violates this: on a 7x10 matrix with all 70 logical bits set through
`set` (padding bits zero), every element is true yet `all()` returns
false, because for the last partial bitpack `linear_bitpack_visit::run`
passes the count of valid bits while `all_visitor::apply(b, size)`
interprets its argument as the count of padding bits. -/
theorem c2_all_false_on_all_true_matrix :
    ((cellList 7 10).all fun p => allSet70.elem p.1 p.2) = true ∧
      allVisit allSet70.toXpr = false := by decide

/-- C3: the claim states `any()` is true iff at least one logical element
is true, and that setting any single bit of an all-zero vector makes it
true.  The code violates this: on a 40-element vector `any()` is false
even after `set(39)`, because for expressions smaller than one bitpack
`linear_bitpack_visit::run` passes `PackSize - size` (the padding count)
while `any_visitor::apply(b, size)` interprets its argument as the count
of valid bits, so only bits `0..23` are inspected. -/
theorem c3_any_false_after_set :
    anyVisit (BinaryMatrix.ofDims 40 1).toXpr = false ∧
      vec40.elem 39 0 = true ∧ anyVisit vec40.toXpr = false := by decide

/-- C4 counterexample: assigning an all-false 1x1 expression into a 1x1
block whose cell is currently true leaves the cell true, so the
assignment is not an element-wise copy as claimed. -/
theorem c4_block_assign_not_elementwise_copy :
    (BinaryMatrix.toXpr zeroCell).rows = 1 ∧ (BinaryMatrix.toXpr zeroCell).cols = 1 ∧
    (BinaryMatrix.toXpr zeroCell).elem 0 0 = false ∧
    blockElem (blockAssign oneCell 0 0 zeroCell.toXpr) 0 0 0 0 = true := by decide

/-- C4 (amended): block assignment only raises bits — after assigning
`rhs` into the block at `(sr, sc)` of size `br x bc` of a well-formed
matrix (with `rhs.rows() == block_rows` and `rhs.cols() == block_cols` as
the source asserts, and the block inside the matrix), every block cell
holds the OR of its previous value and the corresponding `rhs` element;
cells with `rhs(i,j)` false keep their prior value rather than being
cleared. -/
theorem c4_block_assign_sets_or (m : BinaryMatrix) (rhs : BinMtxXpr) (sr sc br bc i j : Nat)
    (hwf : m.wf) (hrow : sr + br ≤ m.n_rows) (hcol : sc + bc ≤ m.n_cols)
    (hrr : rhs.rows = br) (hrc : rhs.cols = bc) (hi : i < br) (hj : j < bc) :
    blockElem (blockAssign m sr sc rhs) sr sc i j
      = (blockElem m sr sc i j || rhs.elem i j) := by
  unfold blockAssign blockElem
  rw [hrr, hrc]
  rw [foldl_assign_elem rhs sr sc (cellList br bc) m hwf
        (fun p hp => by
          rw [cellList_mem] at hp
          omega)
        (i + sr) (j + sc) (by omega) (by omega)]
  congr 1
  rw [Bool.eq_iff_iff, List.any_eq_true]
  constructor
  · rintro ⟨p, hp, hfp⟩
    rw [Bool.and_eq_true, Bool.and_eq_true] at hfp
    obtain ⟨⟨hfe, hfa⟩, hfb⟩ := hfp
    rw [beq_iff_eq] at hfa hfb
    have hp1 : p.1 = i := by omega
    have hp2 : p.2 = j := by omega
    rw [← hp1, ← hp2]
    exact hfe
  · intro hfe
    refine ⟨(i, j), (cellList_mem br bc (i, j)).mpr ⟨hi, hj⟩, ?_⟩
    simp [hfe]

/-- Witness for the amended C4 theorem at a concrete input. -/
theorem c4_block_assign_sets_or_witness :
    oneCell.wf ∧
      blockElem (blockAssign oneCell 0 0 zeroCell.toXpr) 0 0 0 0
        = (blockElem oneCell 0 0 0 0 || (BinaryMatrix.toXpr zeroCell).elem 0 0) :=
  ⟨by decide, c4_block_assign_sets_or oneCell zeroCell.toXpr 0 0 1 1 0 0 (by decide)
    (by decide) (by decide) (by decide) (by decide) (by decide) (by decide)⟩

/-- C5: for well-formed concrete binary matrices, the dimension assertion
of `operator==`/`operator!=` fails exactly on mismatched runtime
dimensions, and on matched dimensions `operator==` is true iff the two
matrices agree on every logical element (full bitpacks compared directly,
the final bitpack only on its valid bits under the computed mask), while
`operator!=` returns the negation of `operator==`. -/
theorem c5_equality_elementwise (m1 m2 : BinaryMatrix) (h1 : m1.wf) (h2 : m2.wf) :
    (dimAssert m1.toXpr m2.toXpr = false ↔
      ¬(m1.n_rows = m2.n_rows ∧ m1.n_cols = m2.n_cols)) ∧
    (m1.n_rows = m2.n_rows → m1.n_cols = m2.n_cols →
      ((binEq m1.toXpr m2.toXpr = true ↔
        ∀ i, i < m1.n_rows → ∀ j, j < m1.n_cols → m1.elem i j = m2.elem i j) ∧
       binNe m1.toXpr m2.toXpr = !binEq m1.toXpr m2.toXpr)) := by
  have hd : dimAssert m1.toXpr m2.toXpr = true ↔
      (m1.n_rows = m2.n_rows ∧ m1.n_cols = m2.n_cols) := by
    unfold dimAssert
    simp [Bool.and_eq_true, beq_iff_eq]
  constructor
  · rw [← hd]
    cases hdim : dimAssert m1.toXpr m2.toXpr <;> simp
  · intro hrw hcl
    exact ⟨binEq_true_iff m1 m2 h1 h2 hrw hcl, binNe_eq_not_binEq _ _⟩

/-- Witness for the C5 theorem at concrete inputs of equal dimensions. -/
theorem c5_equality_elementwise_witness :
    mtx23.wf ∧ (BinaryMatrix.ofDims 2 3).wf ∧
      ((dimAssert mtx23.toXpr (BinaryMatrix.ofDims 2 3).toXpr = false ↔
        ¬(mtx23.n_rows = (BinaryMatrix.ofDims 2 3).n_rows ∧
          mtx23.n_cols = (BinaryMatrix.ofDims 2 3).n_cols)) ∧
      (mtx23.n_rows = (BinaryMatrix.ofDims 2 3).n_rows →
        mtx23.n_cols = (BinaryMatrix.ofDims 2 3).n_cols →
        ((binEq mtx23.toXpr (BinaryMatrix.ofDims 2 3).toXpr = true ↔
          ∀ i, i < mtx23.n_rows → ∀ j, j < mtx23.n_cols →
            mtx23.elem i j = (BinaryMatrix.ofDims 2 3).elem i j) ∧
        binNe mtx23.toXpr (BinaryMatrix.ofDims 2 3).toXpr
          = !binEq mtx23.toXpr (BinaryMatrix.ofDims 2 3).toXpr))) :=
  ⟨by decide, by decide,
    c5_equality_elementwise mtx23 (BinaryMatrix.ofDims 2 3) (by decide) (by decide)⟩

/-- C6 counterexample: for the equal-shape 1x1 matrices `m1 = [1]` and
`m2 = [0]`, `((m1 ^ m2) | (m1 & m2)) == m2` evaluates to false, refuting
the claimed identity. -/
theorem c6_xor_or_and_ne_rhs :
    oneCell.n_rows = zeroCell.n_rows ∧ oneCell.n_cols = zeroCell.n_cols ∧
    binEq (bmOr (bmXor oneCell.toXpr zeroCell.toXpr) (bmAnd oneCell.toXpr zeroCell.toXpr))
        zeroCell.toXpr = false := by decide

/-- C6 (amended): for all concrete matrices `m1`, `m2` of equal shape,
`((m1 ^ m2) | (m1 & m2)) == (m1 | m2)` holds — the left-hand expression is
the elementwise OR of the operands, not `m2`. -/
theorem c6_xor_or_and_eq_or (m1 m2 : BinaryMatrix)
    (hr : m1.n_rows = m2.n_rows) (hc : m1.n_cols = m2.n_cols) :
    binEq (bmOr (bmXor m1.toXpr m2.toXpr) (bmAnd m1.toXpr m2.toXpr))
      (bmOr m1.toXpr m2.toXpr) = true := by
  apply binEq_of_bitpack_eq
  intro k
  show (m1.bitpack k ^^^ m2.bitpack k) ||| (m1.bitpack k &&& m2.bitpack k)
      = m1.bitpack k ||| m2.bitpack k
  exact nat_xor_or_and _ _

/-- Witness for the amended C6 theorem at a concrete input. -/
theorem c6_xor_or_and_eq_or_witness :
    oneCell.n_rows = zeroCell.n_rows ∧ oneCell.n_cols = zeroCell.n_cols ∧
      binEq (bmOr (bmXor oneCell.toXpr zeroCell.toXpr) (bmAnd oneCell.toXpr zeroCell.toXpr))
        (bmOr oneCell.toXpr zeroCell.toXpr) = true :=
  ⟨rfl, rfl, c6_xor_or_and_eq_or oneCell zeroCell rfl rfl⟩

/-- C7 counterexample: for a `1 x 65` matrix the code yields
`bitpacks() = 2`, whereas `ceil(65/PackSize) + 1 = 3` — the claimed
formula `ceil(r*c / PackSize) + 1` does not match the code. -/
theorem c7_bitpacks_not_ceil_plus_one :
    (BinaryMatrix.ofDims 1 65).n_bitpacks ≠ (1 * 65 + PackSize - 1) / PackSize + 1 := by decide

/-- C7 (amended): construction and `resize` both yield
`bitpacks() = floor(r*c / PackSize) + 1` (the source's `std::ceil` acts on
an already integer-divided value), which is always at least the minimum
word count `ceil(r*c / PackSize)`, and equals `ceil(r*c / PackSize) + 1`
(one extra guard word) exactly when `PackSize` divides `r*c`. -/
theorem c7_bitpacks_floor_plus_one (r c : Nat) (m : BinaryMatrix) :
    (BinaryMatrix.ofDims r c).n_bitpacks = r * c / PackSize + 1 ∧
    (m.resize r c).n_bitpacks = r * c / PackSize + 1 ∧
    (r * c + PackSize - 1) / PackSize ≤ r * c / PackSize + 1 ∧
    ((BinaryMatrix.ofDims r c).n_bitpacks = (r * c + PackSize - 1) / PackSize + 1 ↔
      r * c % PackSize = 0) := by
  simp only [BinaryMatrix.ofDims, BinaryMatrix.resize, PackSize]
  refine ⟨by omega, by omega, by omega, by omega⟩

/-- C8 counterexample: on the 2x3 matrix whose only set element is
`(1, 2)`, the concrete type's own access operator (the one selected for a
direct call `m(i, j)`, line 155) evaluated at the out-of-range index
`(0, 5)` silently returns `true` — the value of the in-range cell `(1, 2)`
with the same row-major linear index — instead of failing an assertion. -/
theorem c8_unchecked_access_returns_value :
    mtx23.elem 0 5 = true ∧ mtx23.n_cols = 3 ∧ mtx23.n_rows = 2 ∧
      mtx23.elem 1 2 = true := by decide

/-- C8 (amended): only the base-class access operator (line 537) asserts
the upper bounds — its guard fails exactly when `i >= rows()` or
`j >= cols()` — while the concrete type's own `operator()` (line 155)
performs no bounds check and returns the bit of whatever cell shares the
row-major linear index `i*cols + j`. -/
theorem c8_access_bounds (m : BinaryMatrix) (i j a b : Nat)
    (hlin : a * m.n_cols + b = i * m.n_cols + j) :
    (elemChecked m i j = none ↔ m.n_rows ≤ i ∨ m.n_cols ≤ j) ∧ m.elem a b = m.elem i j := by
  constructor
  · unfold elemChecked
    by_cases hcond : (decide (i < m.n_rows) && decide (j < m.n_cols)) = true
    · rw [if_pos hcond]
      rw [Bool.and_eq_true, decide_eq_true_eq, decide_eq_true_eq] at hcond
      simp
      omega
    · rw [if_neg hcond]
      simp only [Bool.and_eq_true, decide_eq_true_eq] at hcond
      simp
      omega
  · rw [elem_testBit, elem_testBit, hlin]

/-- Witness for the amended C8 theorem at a concrete input. -/
theorem c8_access_bounds_witness :
    1 * mtx23.n_cols + 2 = 0 * mtx23.n_cols + 5 ∧
      ((elemChecked mtx23 0 5 = none ↔ mtx23.n_rows ≤ 0 ∨ mtx23.n_cols ≤ 5) ∧
        mtx23.elem 1 2 = mtx23.elem 0 5) :=
  ⟨by decide, c8_access_bounds mtx23 0 5 1 2 (by decide)⟩

/-- C9: the assertion condition guarding `set(i,j)`, `clear(i,j)` and the
base-class element access checks only `i < rows() && j < cols()` on signed
operands, so a negative index (paired with the other index below its
bound) satisfies the condition: negative indices are not rejected as
precondition violations. -/
theorem c9_negative_indices_pass_assert (r c : Nat) (i j : Int)
    (h : (i < 0 ∧ j < (c : Int)) ∨ (j < 0 ∧ i < (r : Int))) :
    idxAssert r c i j = true := by
  unfold idxAssert
  simp only [Bool.and_eq_true, decide_eq_true_eq]
  omega

/-- Witness for the C9 theorem at a concrete input. -/
theorem c9_negative_indices_pass_assert_witness :
    (((-1 : Int) < 0 ∧ (0 : Int) < ((3 : Nat) : Int)) ∨
      ((0 : Int) < 0 ∧ (-1 : Int) < ((2 : Nat) : Int))) ∧ idxAssert 2 3 (-1) 0 = true :=
  ⟨Or.inl ⟨by norm_num, by norm_num⟩,
    c9_negative_indices_pass_assert 2 3 (-1) 0 (Or.inl ⟨by norm_num, by norm_num⟩)⟩

/-- C10: assignment of a dense numeric matrix into a statically-sized
binary matrix only sets bits at nonzero source entries; any cell that was
true before the assignment and whose source entry is zero remains true
(the target is not cleared first). -/
theorem c10_dense_assign_preserves_true_bits (m : BinaryMatrix) (src : Nat → Nat → Int)
    (i j : Nat) (hi : i < m.n_rows) (hj : j < m.n_cols)
    (hold : m.elem i j = true) (hsrc : src i j = 0) :
    (assignDenseStatic m src).elem i j = true := by
  unfold assignDenseStatic
  exact foldl_set_mono src (cellList m.n_rows m.n_cols) m i j hold

/-- Witness for the C10 theorem at a concrete input. -/
theorem c10_dense_assign_preserves_true_bits_witness :
    1 < mtx23.n_rows ∧ 2 < mtx23.n_cols ∧ mtx23.elem 1 2 = true ∧
      (fun (_ _ : Nat) => (0 : Int)) 1 2 = 0 ∧
      (assignDenseStatic mtx23 (fun _ _ => 0)).elem 1 2 = true :=
  ⟨by decide, by decide, by decide, rfl,
    c10_dense_assign_preserves_true_bits mtx23 (fun _ _ => 0) 1 2 (by decide) (by decide)
      (by decide) rfl⟩

end fdapde
